import Mathlib

/-!
Shallow embedding of the in-memory multi-user filesystem implemented in
`src/main.py` (class `FileSystem` with operations `create_user`, `mkdir`,
`write_file`, `read_file`, `list_dir`, `move`, helpers `_split_path`,
`_get_node`, `_get_parent_dir`, `_check_perm`).

Modelling conventions:
* Python `Node`/`File`/`Directory` dataclasses become the mutual inductives
  `Node`/`Entries`; a Python `dict` of entries is an insertion-ordered
  association list (`Entries`), with dict assignment modelled by
  `Entries.set` (update in place if the key is present, append otherwise)
  and `del` by `Entries.erase`.
* Byte strings (`bytes`) are modelled as `List Nat`.
* Exceptions are modelled by the error kinds of `FsError`; the stateful
  operations return `Option FsError × FileSystem`, the observational pair
  of (raised error, state after the call).  `read_file` and `list_dir` do
  not mutate any state in the source, so they are embedded as pure
  functions returning `Except FsError _`.
* In-place mutation at a resolved parent reference is replayed as a
  functional update along the resolved path (`updateAt`).  A Python
  mutation of a node that has become unreachable from the root (possible
  in `move` when the destination parent lies inside the moved subtree) is
  observationally invisible, and `updateAt` correspondingly leaves the
  tree unchanged when the path no longer resolves.
* `os.path.normpath`/`str.split` are modelled for POSIX (`os.sep = "/"`)
  by `normParts`/`splitSep`, following CPython's `posixpath.normpath`
  component algorithm.
-/

namespace FsModel

/-- Error kinds raised by `main.py`, mapped from the exception classes and
messages per the spec's taxonomy (§7). -/
inductive FsError where
  | unknownUser
  | notFound
  | permissionDenied
  | notADirectory
  | isADirectory
  | alreadyExists
  | invalidOperation
deriving DecidableEq, Repr

deriving instance DecidableEq for Except

/-- The permission kinds `'r'`, `'w'`, `'x'` of `_check_perm`. -/
inductive Perm where
  | r
  | w
  | x
deriving DecidableEq, Repr

/-- `perms_map = {"r": 4, "w": 2, "x": 1}` in `_check_perm`. -/
def permBit : Perm → Nat
  | .r => 4
  | .w => 2
  | .x => 1

mutual
/-- A tree node: `File(name, owner, mode, content)` or
`Directory(name, owner, mode, entries)` from `main.py`. -/
inductive Node where
  | file (name owner : String) (mode : Nat) (content : List Nat)
  | dir (name owner : String) (mode : Nat) (entries : Entries)

/-- The `entries` dict of a `Directory`: an insertion-ordered association
list from child name to child node. -/
inductive Entries where
  | nil
  | cons (key : String) (node : Node) (rest : Entries)
end

/-- The `name` attribute common to both node kinds. -/
def Node.name : Node → String
  | .file n _ _ _ => n
  | .dir n _ _ _ => n

/-- The `owner` attribute common to both node kinds. -/
def Node.owner : Node → String
  | .file _ o _ _ => o
  | .dir _ o _ _ => o

/-- The `mode` attribute common to both node kinds. -/
def Node.mode : Node → Nat
  | .file _ _ m _ => m
  | .dir _ _ m _ => m

/-- `isinstance(node, Directory)`. -/
def Node.isDir : Node → Bool
  | .file _ _ _ _ => false
  | .dir _ _ _ _ => true

/-- The `entries` dict of a directory (empty for a file, which has none). -/
def Node.entries : Node → Entries
  | .file _ _ _ _ => .nil
  | .dir _ _ _ es => es

/-- The `content` bytes of a file (empty for a directory, which has none). -/
def Node.content : Node → List Nat
  | .file _ _ _ c => c
  | .dir _ _ _ _ => []

/-- The assignment `node.name = newName` of `move`. -/
def Node.rename : Node → String → Node
  | .file _ o m c, nm => .file nm o m c
  | .dir _ o m es, nm => .dir nm o m es

/-- Replace the `entries` dict of a directory (identity on files). -/
def Node.withEntries : Node → Entries → Node
  | .dir n o m _, es => .dir n o m es
  | .file n o m c, _ => .file n o m c

/-- Dict lookup `entries.get(key)` / `entries[key]`. -/
def Entries.lookup : Entries → String → Option Node
  | .nil, _ => none
  | .cons k v rest, key => if k = key then some v else rest.lookup key

/-- Dict membership `key in entries`. -/
def Entries.hasKey : Entries → String → Bool
  | .nil, _ => false
  | .cons k _ rest, key => if k = key then true else rest.hasKey key

/-- Dict assignment `entries[key] = v`: update in place if present,
append otherwise (Python dicts preserve insertion order). -/
def Entries.set : Entries → String → Node → Entries
  | .nil, key, v => .cons key v .nil
  | .cons k w rest, key, v =>
    if k = key then .cons k v rest else .cons k w (rest.set key v)

/-- Dict deletion `del entries[key]`. -/
def Entries.erase : Entries → String → Entries
  | .nil, _ => .nil
  | .cons k w rest, key => if k = key then rest else .cons k w (rest.erase key)

/-- `list(entries.keys())` in insertion order. -/
def Entries.keys : Entries → List String
  | .nil => []
  | .cons k _ rest => k :: rest.keys

/-- `str.split("/")` on the underlying characters: splits at every
separator, keeping empty pieces. -/
def splitSep : List Char → List String
  | [] => [""]
  | c :: rest =>
    let r := splitSep rest
    if c = '/' then "" :: r
    else
      match r with
      | [] => [String.mk [c]]
      | s :: ss => String.mk (c :: s.data) :: ss

/-- `path.startswith(os.sep)` for POSIX. -/
def isAbs (path : String) : Bool :=
  path.data.head? = some '/'

/-- One step of CPython's `posixpath.normpath` component normalisation:
drop empty and `"."` components; a `".."` pops the previous real
component, is discarded at the root of an absolute path, and is kept
literally at the head of a relative path. -/
def normStep (absolute : Bool) (acc : List String) (part : String) : List String :=
  if part = "" ∨ part = "." then acc
  else if part = ".." then
    if acc ≠ [] ∧ acc.getLast? ≠ some ".." then acc.dropLast
    else if absolute then acc
    else acc ++ [".."]
  else acc ++ [part]

/-- The component list produced by `posixpath.normpath`. -/
def normParts (absolute : Bool) (parts : List String) : List String :=
  parts.foldl (normStep absolute) []

/-- `_split_path` of `main.py`: `os.path.normpath`, strip a leading
separator, split on the separator and drop empty parts — equivalently,
`normpath`'s normalised component list. -/
def splitPath (path : String) : List String :=
  normParts (isAbs path) (splitSep path.data)

/-- `parts[-1]`, the final component of a non-empty component list (the
`[]` case is junk that every call site excludes by a prior emptiness
check, as in the source). -/
def lastPart : List String → String
  | [] => ""
  | [a] => a
  | _ :: b :: rest => lastPart (b :: rest)

/-- Code-point lexicographic comparison of character lists, the order
`sorted` uses on Python `str` values. -/
def charsLe : List Char → List Char → Bool
  | [], _ => true
  | _ :: _, [] => false
  | a :: as, b :: bs => if a = b then charsLe as bs else decide (a < b)

/-- Lexicographic `<=` on strings by code points (Python's `str` order). -/
def strLe (a b : String) : Bool :=
  charsLe a.data b.data

/-- `FileSystem._check_perm(node, username, perm)`. -/
def checkPerm (node : Node) (username : String) (perm : Perm) : Bool :=
  let bit := permBit perm
  let shift := if username = node.owner then 6 else 0
  ((node.mode >>> shift) &&& bit) != 0

/-- `FileSystem._get_node` walking an already-split component list:
`none` models `FileNotFoundError`. -/
def resolveNode : Node → List String → Option Node
  | cur, [] => some cur
  | cur, part :: rest =>
    match cur with
    | .dir _ _ _ entries =>
      match entries.lookup part with
      | some child => resolveNode child rest
      | none => none
    | .file _ _ _ _ => none

/-- `FileSystem._get_parent_dir` on an already-split component list. -/
def resolveParent (root : Node) (parts : List String) : Option Node :=
  if parts = [] then some root
  else
    match resolveNode root parts.dropLast with
    | some n => if n.isDir then some n else none
    | none => none

/-- The mutable state of a `FileSystem` object: the user registry and the
root directory. -/
structure FileSystem where
  users : List String
  root : Node

/-- `FileSystem.__init__`: empty registry, world-writable root. -/
def FileSystem.init : FileSystem :=
  { users := [], root := .dir "/" "root" 0o777 .nil }

/-- `FileSystem.create_user`. -/
def FileSystem.create_user (fs : FileSystem) (username : String) : FileSystem :=
  if username ∈ fs.users then fs
  else { fs with users := fs.users ++ [username] }

/-- Replay of an in-place mutation `f` of the node resolved at `parts`:
rebuilds the tree along the path, leaving it unchanged when the path no
longer resolves (the Python mutation then hits a node unreachable from
root and is observationally invisible). -/
def updateAt (f : Node → Node) : Node → List String → Node
  | cur, [] => f cur
  | cur, part :: rest =>
    match cur with
    | .dir n o m entries =>
      match entries.lookup part with
      | some child => .dir n o m (entries.set part (updateAt f child rest))
      | none => .dir n o m entries
    | .file n o m c => .file n o m c

/-- The component-walking loop of `FileSystem.mkdir`, returning the error
raised (if any) together with the current directory as mutated so far
(creations performed before an error are kept, as in the source). -/
def mkdirGo (username : String) (mode : Nat) : Node → List String → Option FsError × Node
  | cur, [] => (none, cur)
  | cur, part :: rest =>
    match cur with
    | .dir n o m entries =>
      match entries.lookup part with
      | none =>
        if checkPerm (.dir n o m entries) username .w = false ∧ username ≠ o then
          (some .permissionDenied, .dir n o m entries)
        else
          let res := mkdirGo username mode (.dir part username mode .nil) rest
          (res.1, .dir n o m (entries.set part res.2))
      | some child =>
        match child with
        | .dir cn co cm ces =>
          let res := mkdirGo username mode (.dir cn co cm ces) rest
          (res.1, .dir n o m (entries.set part res.2))
        | .file _ _ _ _ =>
          (some .notADirectory, .dir n o m entries)
    | .file n o m c => (some .notFound, .file n o m c)

/-- `FileSystem.mkdir(path, username, mode)` (the final `Node.file` case of
`mkdirGo` is unreachable: the walk starts at root, a directory, and only
descends into directories). -/
def FileSystem.mkdir (fs : FileSystem) (path username : String) (mode : Nat) :
    Option FsError × FileSystem :=
  if username ∉ fs.users then (some .unknownUser, fs)
  else if path = "/" ∨ path = "" then (none, fs)
  else
    let res := mkdirGo username mode fs.root (splitPath path)
    (res.1, { fs with root := res.2 })

/-- `FileSystem.write_file(path, username, data, mode)`; `data` is the byte
sequence after the `str`/`bytes` coercion. -/
def FileSystem.write_file (fs : FileSystem) (path username : String)
    (data : List Nat) (mode : Nat) : Option FsError × FileSystem :=
  if username ∉ fs.users then (some .unknownUser, fs)
  else
    let parts := splitPath path
    if parts = [] then (some .invalidOperation, fs)
    else
      match resolveParent fs.root parts with
      | none => (some .notFound, fs)
      | some parent =>
        if checkPerm parent username .w = false ∧ username ≠ parent.owner then
          (some .permissionDenied, fs)
        else
          let nm := lastPart parts
          match parent.entries.lookup nm with
          | none =>
            let newRoot := updateAt
              (fun nd => nd.withEntries (nd.entries.set nm (.file nm username mode data)))
              fs.root parts.dropLast
            (none, { fs with root := newRoot })
          | some (.dir _ _ _ _) => (some .isADirectory, fs)
          | some (.file fn fo fm fc) =>
            if checkPerm (.file fn fo fm fc) username .w = false ∧ username ≠ fo then
              (some .permissionDenied, fs)
            else
              let newRoot := updateAt
                (fun nd => nd.withEntries (nd.entries.set nm (.file fn fo fm data)))
                fs.root parts.dropLast
              (none, { fs with root := newRoot })

/-- `FileSystem.read_file(path, username)`; note the source performs no
user-registration check here. -/
def FileSystem.read_file (fs : FileSystem) (path username : String) :
    Except FsError (List Nat) :=
  match resolveNode fs.root (splitPath path) with
  | none => .error .notFound
  | some nd =>
    match nd with
    | .dir _ _ _ _ => .error .isADirectory
    | .file n o m c =>
      if checkPerm (.file n o m c) username .r = false ∧ username ≠ o then
        .error .permissionDenied
      else .ok c

/-- `FileSystem.list_dir(path, username)`; note the source performs no
user-registration check here, and the listing is `sorted(entries.keys())`. -/
def FileSystem.list_dir (fs : FileSystem) (path username : String) :
    Except FsError (List String) :=
  let nd? := if path = "" ∨ path = "/" then some fs.root
             else resolveNode fs.root (splitPath path)
  match nd? with
  | none => .error .notFound
  | some nd =>
    match nd with
    | .file _ _ _ _ => .error .notADirectory
    | .dir n o m entries =>
      if checkPerm (.dir n o m entries) username .r = false ∧ username ≠ o then
        .error .permissionDenied
      else .ok (List.insertionSort (fun a b => strLe a b = true) entries.keys)

/-- `FileSystem.move(src_path, dest_path, username)`. -/
def FileSystem.move (fs : FileSystem) (src_path dest_path username : String) :
    Option FsError × FileSystem :=
  if username ∉ fs.users then (some .unknownUser, fs)
  else
    let srcParts := splitPath src_path
    if srcParts = [] then (some .invalidOperation, fs)
    else
      match resolveParent fs.root srcParts with
      | none => (some .notFound, fs)
      | some srcParent =>
        let srcName := lastPart srcParts
        match srcParent.entries.lookup srcName with
        | none => (some .notFound, fs)
        | some srcNode =>
          if checkPerm srcParent username .w = false ∧ username ≠ srcParent.owner then
            (some .permissionDenied, fs)
          else
            let destParts := splitPath dest_path
            if destParts = [] then (some .invalidOperation, fs)
            else
              match resolveParent fs.root destParts with
              | none => (some .notFound, fs)
              | some destParent =>
                if checkPerm destParent username .w = false ∧ username ≠ destParent.owner then
                  (some .permissionDenied, fs)
                else
                  let destName := lastPart destParts
                  match destParent.entries.lookup destName with
                  | some _ => (some .alreadyExists, fs)
                  | none =>
                    let root1 := updateAt
                      (fun nd => nd.withEntries (nd.entries.erase srcName))
                      fs.root srcParts.dropLast
                    let root2 := updateAt
                      (fun nd => nd.withEntries (nd.entries.set destName (srcNode.rename destName)))
                      root1 destParts.dropLast
                    (none, { fs with root := root2 })

/-! ## Structural well-formedness

In this functional embedding the state is an inductive tree, so the
spec's "acyclic and rooted" invariant amounts to: the root stays a
directory, and every directory's entry keys are pairwise distinct, so
that each node of the tree is addressed by exactly one entries-chain of
keys. -/

/-- No duplicate keys in one entries dict. -/
def keysNodup : Entries → Bool
  | .nil => true
  | .cons k _ rest => !(rest.hasKey k) && keysNodup rest

mutual
/-- Every directory in the subtree has duplicate-free entry keys. -/
def nodeWf : Node → Bool
  | .file _ _ _ _ => true
  | .dir _ _ _ entries => keysNodup entries && entriesWf entries

/-- `nodeWf` for every node of an entries dict. -/
def entriesWf : Entries → Bool
  | .nil => true
  | .cons _ v rest => nodeWf v && entriesWf rest
end

/-- The tree invariant of the spec, as a predicate on the embedded state. -/
def treeWf (fs : FileSystem) : Prop :=
  fs.root.isDir = true ∧ nodeWf fs.root = true

/-! ## Entries lemmas -/

/-- Induction over an entries dict alone (the mutual recursor of
`Node`/`Entries` has two motives, which `induction` cannot use directly). -/
@[induction_eliminator]
theorem Entries.inductionOn {motive : Entries → Prop} (nil : motive .nil)
    (cons : ∀ (k : String) (v : Node) (rest : Entries),
      motive rest → motive (.cons k v rest)) :
    ∀ es, motive es
  | .nil => nil
  | .cons k v rest => cons k v rest (Entries.inductionOn nil cons rest)

theorem Entries.lookup_set_self (es : Entries) (k : String) (v : Node) :
    (es.set k v).lookup k = some v := by
  induction es with
  | nil => simp [Entries.set, Entries.lookup]
  | cons k0 w rest ih =>
    by_cases h : k0 = k <;> simp [Entries.set, Entries.lookup, h, ih]

theorem Entries.lookup_set_ne (es : Entries) (k : String) (v : Node) (k2 : String)
    (h : k ≠ k2) : (es.set k v).lookup k2 = es.lookup k2 := by
  induction es with
  | nil => simp [Entries.set, Entries.lookup, h]
  | cons k0 w rest ih =>
    by_cases h0 : k0 = k
    · subst h0
      simp [Entries.set, Entries.lookup, h]
    · simp [Entries.set, Entries.lookup, h0, ih]

theorem Entries.set_self (es : Entries) (k : String) (v : Node)
    (h : es.lookup k = some v) : es.set k v = es := by
  induction es with
  | nil => simp [Entries.lookup] at h
  | cons k0 w rest ih =>
    by_cases h0 : k0 = k
    · subst h0
      have hw : w = v := by simpa [Entries.lookup] using h
      subst hw
      simp [Entries.set]
    · simp only [Entries.lookup, if_neg h0] at h
      simp [Entries.set, h0, ih h]

theorem Entries.hasKey_set (es : Entries) (k : String) (v : Node) (k2 : String) :
    (es.set k v).hasKey k2 = (es.hasKey k2 || decide (k = k2)) := by
  induction es with
  | nil => by_cases h : k = k2 <;> simp [Entries.set, Entries.hasKey, h]
  | cons k0 w rest ih =>
    by_cases h0 : k0 = k
    · subst h0
      by_cases h2 : k0 = k2
      · subst h2
        simp [Entries.set, Entries.hasKey]
      · simp [Entries.set, Entries.hasKey, h2, ih]
    · by_cases h2 : k0 = k2
      · subst h2
        simp [Entries.set, Entries.hasKey, h0]
      · simp [Entries.set, Entries.hasKey, h0, h2, ih]

theorem Entries.hasKey_of_hasKey_erase (es : Entries) (k k2 : String)
    (h : (es.erase k).hasKey k2 = true) : es.hasKey k2 = true := by
  induction es with
  | nil => simpa [Entries.erase] using h
  | cons k0 w rest ih =>
    by_cases h0 : k0 = k
    · subst h0
      have h' : rest.hasKey k2 = true := by simpa [Entries.erase] using h
      by_cases h2 : k0 = k2 <;> simp [Entries.hasKey, h2, h']
    · simp only [Entries.erase, if_neg h0] at h
      by_cases h2 : k0 = k2
      · simp [Entries.hasKey, h2]
      · simp only [Entries.hasKey, if_neg h2] at h ⊢
        exact ih h

theorem keysNodup_set (es : Entries) (k : String) (v : Node)
    (h : keysNodup es = true) : keysNodup (es.set k v) = true := by
  induction es with
  | nil => simp [Entries.set, keysNodup, Entries.hasKey]
  | cons k0 w rest ih =>
    simp only [keysNodup, Bool.and_eq_true, Bool.not_eq_true'] at h
    by_cases h0 : k0 = k
    · subst h0
      simp [Entries.set, keysNodup, h.1, h.2]
    · simp only [Entries.set, if_neg h0, keysNodup, Bool.and_eq_true, Bool.not_eq_true']
      refine ⟨?_, ih h.2⟩
      rw [Entries.hasKey_set]
      have hne : ¬(k = k0) := fun hh => h0 hh.symm
      simp [h.1, hne]

theorem keysNodup_erase (es : Entries) (k : String)
    (h : keysNodup es = true) : keysNodup (es.erase k) = true := by
  induction es with
  | nil => simpa [Entries.erase] using h
  | cons k0 w rest ih =>
    simp only [keysNodup, Bool.and_eq_true, Bool.not_eq_true'] at h
    by_cases h0 : k0 = k
    · subst h0
      simp [Entries.erase, h.2]
    · simp only [Entries.erase, if_neg h0, keysNodup, Bool.and_eq_true, Bool.not_eq_true']
      refine ⟨?_, ih h.2⟩
      by_cases he : (rest.erase k).hasKey k0 = true
      · have := Entries.hasKey_of_hasKey_erase rest k k0 he
        rw [this] at h
        exact absurd h.1 (by simp)
      · simpa using he

theorem entriesWf_lookup (es : Entries) (k : String) (n : Node)
    (hwf : entriesWf es = true) (h : es.lookup k = some n) : nodeWf n = true := by
  induction es with
  | nil => simp [Entries.lookup] at h
  | cons k0 w rest ih =>
    simp only [entriesWf, Bool.and_eq_true] at hwf
    by_cases h0 : k0 = k
    · simp only [Entries.lookup, if_pos h0, Option.some.injEq] at h
      exact h ▸ hwf.1
    · simp only [Entries.lookup, if_neg h0] at h
      exact ih hwf.2 h

theorem entriesWf_set (es : Entries) (k : String) (v : Node)
    (hwf : entriesWf es = true) (hv : nodeWf v = true) :
    entriesWf (es.set k v) = true := by
  induction es with
  | nil => simp [Entries.set, entriesWf, hv]
  | cons k0 w rest ih =>
    simp only [entriesWf, Bool.and_eq_true] at hwf
    by_cases h0 : k0 = k
    · simp [Entries.set, h0, entriesWf, hv, hwf.2]
    · simp [Entries.set, h0, entriesWf, hwf.1, ih hwf.2]

theorem entriesWf_erase (es : Entries) (k : String)
    (hwf : entriesWf es = true) : entriesWf (es.erase k) = true := by
  induction es with
  | nil => simpa [Entries.erase] using hwf
  | cons k0 w rest ih =>
    simp only [entriesWf, Bool.and_eq_true] at hwf
    by_cases h0 : k0 = k
    · simp [Entries.erase, h0, hwf.2]
    · simp [Entries.erase, h0, entriesWf, hwf.1, ih hwf.2]

theorem nodeWf_dir (n o : String) (m : Nat) (es : Entries) :
    nodeWf (.dir n o m es) = true ↔ (keysNodup es = true ∧ entriesWf es = true) := by
  simp [nodeWf, Bool.and_eq_true]

theorem nodeWf_lookup (nd : Node) (k : String) (n : Node)
    (hwf : nodeWf nd = true) (h : nd.entries.lookup k = some n) : nodeWf n = true := by
  cases nd with
  | file _ _ _ _ => simp [Node.entries, Entries.lookup] at h
  | dir dn do' dm es =>
    rw [nodeWf_dir] at hwf
    exact entriesWf_lookup es k n hwf.2 h

theorem nodeWf_rename (nd : Node) (nm : String) (h : nodeWf nd = true) :
    nodeWf (nd.rename nm) = true := by
  cases nd <;> simp_all [Node.rename, nodeWf]

theorem isDir_withEntries (nd : Node) (es : Entries) :
    (nd.withEntries es).isDir = nd.isDir := by
  cases nd <;> simp [Node.withEntries, Node.isDir]

/-! ## Resolution and update lemmas -/

theorem nodeWf_withEntries_set (nd : Node) (k : String) (v : Node)
    (h : nodeWf nd = true) (hv : nodeWf v = true) :
    nodeWf (nd.withEntries (nd.entries.set k v)) = true := by
  cases nd with
  | file _ _ _ _ => simpa [Node.withEntries] using h
  | dir n o m es =>
    rw [nodeWf_dir] at h
    simp only [Node.withEntries, Node.entries]
    rw [nodeWf_dir]
    exact ⟨keysNodup_set es k v h.1, entriesWf_set es k v h.2 hv⟩

theorem nodeWf_withEntries_erase (nd : Node) (k : String)
    (h : nodeWf nd = true) :
    nodeWf (nd.withEntries (nd.entries.erase k)) = true := by
  cases nd with
  | file _ _ _ _ => simpa [Node.withEntries] using h
  | dir n o m es =>
    rw [nodeWf_dir] at h
    simp only [Node.withEntries, Node.entries]
    rw [nodeWf_dir]
    exact ⟨keysNodup_erase es k h.1, entriesWf_erase es k h.2⟩

theorem resolveNode_append (q1 q2 : List String) :
    ∀ cur : Node, resolveNode cur (q1 ++ q2) =
      (resolveNode cur q1).bind (fun n => resolveNode n q2) := by
  induction q1 with
  | nil => intro cur; simp [resolveNode]
  | cons part rest ih =>
    intro cur
    cases cur with
    | file _ _ _ _ => simp [resolveNode]
    | dir n o m es =>
      simp only [List.cons_append, resolveNode]
      cases es.lookup part with
      | none => simp
      | some child => simpa using ih child

theorem resolveNode_updateAt (f : Node → Node) :
    ∀ (q : List String) (cur n : Node), resolveNode cur q = some n →
      resolveNode (updateAt f cur q) q = some (f n) := by
  intro q
  induction q with
  | nil =>
    intro cur n h
    simp only [resolveNode, Option.some.injEq] at h
    simp [updateAt, resolveNode, h]
  | cons part rest ih =>
    intro cur n h
    cases cur with
    | file _ _ _ _ => simp [resolveNode] at h
    | dir nm o m es =>
      simp only [resolveNode] at h
      cases hl : es.lookup part with
      | none => rw [hl] at h; simp at h
      | some child =>
        rw [hl] at h
        simp only [updateAt, hl, resolveNode, Entries.lookup_set_self]
        exact ih child n h

theorem nodeWf_resolve :
    ∀ (q : List String) (cur n : Node), nodeWf cur = true →
      resolveNode cur q = some n → nodeWf n = true := by
  intro q
  induction q with
  | nil =>
    intro cur n hwf h
    simp only [resolveNode, Option.some.injEq] at h
    exact h ▸ hwf
  | cons part rest ih =>
    intro cur n hwf h
    cases cur with
    | file _ _ _ _ => simp [resolveNode] at h
    | dir nm o m es =>
      simp only [resolveNode] at h
      cases hl : es.lookup part with
      | none => rw [hl] at h; simp at h
      | some child =>
        rw [hl] at h
        have hchild : nodeWf child = true :=
          nodeWf_lookup (.dir nm o m es) part child hwf hl
        exact ih child n hchild h

theorem nodeWf_updateAt (f : Node → Node)
    (hf : ∀ n, nodeWf n = true → nodeWf (f n) = true) :
    ∀ (q : List String) (cur : Node), nodeWf cur = true →
      nodeWf (updateAt f cur q) = true := by
  intro q
  induction q with
  | nil => intro cur hwf; exact hf cur hwf
  | cons part rest ih =>
    intro cur hwf
    cases cur with
    | file _ _ _ _ => simpa [updateAt] using hwf
    | dir nm o m es =>
      cases hl : es.lookup part with
      | none => simpa [updateAt, hl] using hwf
      | some child =>
        simp only [updateAt, hl]
        have hchild : nodeWf child = true :=
          nodeWf_lookup (.dir nm o m es) part child hwf hl
        rw [nodeWf_dir] at hwf ⊢
        exact ⟨keysNodup_set es part _ hwf.1,
          entriesWf_set es part _ hwf.2 (ih child hchild)⟩

theorem isDir_updateAt (f : Node → Node)
    (hf : ∀ n, (f n).isDir = n.isDir) :
    ∀ (q : List String) (cur : Node), (updateAt f cur q).isDir = cur.isDir := by
  intro q
  induction q with
  | nil => intro cur; exact hf cur
  | cons part rest ih =>
    intro cur
    cases cur with
    | file _ _ _ _ => simp [updateAt, Node.isDir]
    | dir nm o m es =>
      cases hl : es.lookup part with
      | none => simp [updateAt, hl]
      | some child => simp [updateAt, hl, Node.isDir]

/-! ## mkdir walk lemmas -/

theorem mkdirGo_fresh_ok (u : String) (mo : Nat) :
    ∀ (rest : List String) (nm : String) (md : Nat),
      (mkdirGo u mo (.dir nm u md .nil) rest).1 = none := by
  intro rest
  induction rest with
  | nil => intro nm md; rfl
  | cons part rest' ih =>
    intro nm md
    have hcond : ¬(checkPerm (.dir nm u md .nil) u .w = false ∧ u ≠ u) :=
      fun hc => hc.2 rfl
    simp only [mkdirGo, Entries.lookup, if_neg hcond]
    exact ih part mo

theorem mkdirGo_err (u : String) (mo : Nat) :
    ∀ (parts : List String) (cur : Node) (e : FsError),
      (mkdirGo u mo cur parts).1 = some e → (mkdirGo u mo cur parts).2 = cur := by
  intro parts
  induction parts with
  | nil => intro cur e h; simp [mkdirGo] at h
  | cons part rest ih =>
    intro cur e h
    cases cur with
    | file n o m c => rfl
    | dir n o m es =>
      cases hl : es.lookup part with
      | none =>
        by_cases hc : checkPerm (.dir n o m es) u .w = false ∧ u ≠ o
        · simp [mkdirGo, hl, if_pos hc]
        · simp only [mkdirGo, hl, if_neg hc] at h
          rw [mkdirGo_fresh_ok u mo rest part mo] at h
          simp at h
      | some child =>
        cases child with
        | dir cn co cm ces =>
          simp only [mkdirGo, hl] at h ⊢
          have h2 := ih (.dir cn co cm ces) e h
          rw [h2, Entries.set_self es part _ hl]
        | file fn fo fm fc =>
          simp [mkdirGo, hl]

theorem mkdirGo_wf (u : String) (mo : Nat) :
    ∀ (parts : List String) (cur : Node), nodeWf cur = true →
      nodeWf (mkdirGo u mo cur parts).2 = true := by
  intro parts
  induction parts with
  | nil => intro cur h; simpa [mkdirGo] using h
  | cons part rest ih =>
    intro cur h
    cases cur with
    | file n o m c => simpa [mkdirGo] using h
    | dir n o m es =>
      rw [nodeWf_dir] at h
      cases hl : es.lookup part with
      | none =>
        by_cases hc : checkPerm (.dir n o m es) u .w = false ∧ u ≠ o
        · simp only [mkdirGo, hl, if_pos hc]
          rw [nodeWf_dir]
          exact h
        · simp only [mkdirGo, hl, if_neg hc]
          rw [nodeWf_dir]
          have hfresh : nodeWf (.dir part u mo .nil) = true := by
            simp [nodeWf, keysNodup, entriesWf]
          have hsub := ih (.dir part u mo .nil) hfresh
          exact ⟨keysNodup_set es part _ h.1, entriesWf_set es part _ h.2 hsub⟩
      | some child =>
        cases child with
        | dir cn co cm ces =>
          simp only [mkdirGo, hl]
          rw [nodeWf_dir]
          have hchild : nodeWf (.dir cn co cm ces) = true :=
            entriesWf_lookup es part _ h.2 hl
          have hsub := ih (.dir cn co cm ces) hchild
          exact ⟨keysNodup_set es part _ h.1, entriesWf_set es part _ h.2 hsub⟩
        | file fn fo fm fc =>
          simp only [mkdirGo, hl]
          rw [nodeWf_dir]
          exact h

theorem mkdirGo_isDir (u : String) (mo : Nat) :
    ∀ (parts : List String) (cur : Node),
      (mkdirGo u mo cur parts).2.isDir = cur.isDir := by
  intro parts
  induction parts with
  | nil => intro cur; rfl
  | cons part rest ih =>
    intro cur
    cases cur with
    | file n o m c => rfl
    | dir n o m es =>
      cases hl : es.lookup part with
      | none =>
        by_cases hc : checkPerm (.dir n o m es) u .w = false ∧ u ≠ o
        · simp [mkdirGo, hl, if_pos hc]
        · simp [mkdirGo, hl, if_neg hc, Node.isDir]
      | some child =>
        cases child with
        | dir cn co cm ces => simp [mkdirGo, hl, Node.isDir]
        | file fn fo fm fc => simp [mkdirGo, hl, Node.isDir]

theorem mkdirGo_noop (u : String) (mo : Nat) :
    ∀ (parts : List String) (cur d : Node),
      resolveNode cur parts = some d → d.isDir = true →
      mkdirGo u mo cur parts = (none, cur) := by
  intro parts
  induction parts with
  | nil => intro cur d _ _; rfl
  | cons part rest ih =>
    intro cur d hres hdir
    cases cur with
    | file n o m c => simp [resolveNode] at hres
    | dir n o m es =>
      simp only [resolveNode] at hres
      cases hl : es.lookup part with
      | none => rw [hl] at hres; simp at hres
      | some child =>
        rw [hl] at hres
        cases child with
        | dir cn co cm ces =>
          have hsub := ih (.dir cn co cm ces) d hres hdir
          simp only [mkdirGo, hl, hsub]
          rw [Entries.set_self es part _ hl]
        | file fn fo fm fc =>
          cases rest with
          | nil =>
            simp only [resolveNode, Option.some.injEq] at hres
            rw [← hres] at hdir
            simp [Node.isDir] at hdir
          | cons r rs => simp [resolveNode] at hres

/-! ## Invariant preservation for the state-mutating operations -/

theorem nodeWf_resolveParent (root : Node) (parts : List String) (n : Node)
    (hroot : nodeWf root = true) (h : resolveParent root parts = some n) :
    nodeWf n = true := by
  unfold resolveParent at h
  by_cases hp : parts = []
  · rw [if_pos hp] at h
    simp only [Option.some.injEq] at h
    exact h ▸ hroot
  · rw [if_neg hp] at h
    cases hr : resolveNode root parts.dropLast with
    | none => rw [hr] at h; simp at h
    | some n0 =>
      rw [hr] at h
      dsimp only at h
      by_cases hd : n0.isDir = true
      · rw [if_pos hd] at h
        simp only [Option.some.injEq] at h
        exact h ▸ nodeWf_resolve parts.dropLast root n0 hroot hr
      · rw [if_neg hd] at h
        simp at h

theorem treeWf_mkdir (fs : FileSystem) (p u : String) (m : Nat)
    (h : treeWf fs) : treeWf (fs.mkdir p u m).2 := by
  unfold FileSystem.mkdir
  by_cases hu : u ∉ fs.users
  · rw [if_pos hu]; exact h
  · rw [if_neg hu]
    by_cases hp : p = "/" ∨ p = ""
    · rw [if_pos hp]; exact h
    · rw [if_neg hp]
      refine ⟨?_, ?_⟩
      · show (mkdirGo u m fs.root (splitPath p)).2.isDir = true
        rw [mkdirGo_isDir]
        exact h.1
      · exact mkdirGo_wf u m (splitPath p) fs.root h.2

theorem treeWf_write_file (fs : FileSystem) (p u : String) (data : List Nat)
    (m : Nat) (h : treeWf fs) : treeWf (fs.write_file p u data m).2 := by
  unfold FileSystem.write_file
  by_cases hu : u ∉ fs.users
  · rw [if_pos hu]; exact h
  · rw [if_neg hu]
    by_cases hp : splitPath p = []
    · simp only [if_pos hp]; exact h
    · simp only [if_neg hp]
      cases hpar : resolveParent fs.root (splitPath p) with
      | none => exact h
      | some parent =>
        dsimp only
        by_cases hperm : checkPerm parent u .w = false ∧ u ≠ parent.owner
        · rw [if_pos hperm]; exact h
        · rw [if_neg hperm]
          cases hlk : parent.entries.lookup (lastPart (splitPath p)) with
          | none =>
            dsimp only
            refine ⟨?_, ?_⟩
            · show (updateAt _ fs.root _).isDir = true
              rw [isDir_updateAt _ (fun n => isDir_withEntries n _)]
              exact h.1
            · exact nodeWf_updateAt _
                (fun n hn => nodeWf_withEntries_set n _ _ hn (by simp [nodeWf]))
                _ fs.root h.2
          | some exist =>
            cases exist with
            | dir _ _ _ _ => exact h
            | file fn fo fm fc =>
              dsimp only
              by_cases hperm2 : checkPerm (.file fn fo fm fc) u .w = false ∧ u ≠ fo
              · rw [if_pos hperm2]; exact h
              · rw [if_neg hperm2]
                refine ⟨?_, ?_⟩
                · show (updateAt _ fs.root _).isDir = true
                  rw [isDir_updateAt _ (fun n => isDir_withEntries n _)]
                  exact h.1
                · exact nodeWf_updateAt _
                    (fun n hn => nodeWf_withEntries_set n _ _ hn (by simp [nodeWf]))
                    _ fs.root h.2

theorem treeWf_move (fs : FileSystem) (sp dp u : String)
    (h : treeWf fs) : treeWf (fs.move sp dp u).2 := by
  unfold FileSystem.move
  by_cases hu : u ∉ fs.users
  · rw [if_pos hu]; exact h
  · rw [if_neg hu]
    by_cases hsp : splitPath sp = []
    · simp only [if_pos hsp]; exact h
    · simp only [if_neg hsp]
      cases hspar : resolveParent fs.root (splitPath sp) with
      | none => exact h
      | some srcParent =>
        dsimp only
        cases hslk : srcParent.entries.lookup (lastPart (splitPath sp)) with
        | none => exact h
        | some srcNode =>
          dsimp only
          by_cases hperm : checkPerm srcParent u .w = false ∧ u ≠ srcParent.owner
          · rw [if_pos hperm]; exact h
          · rw [if_neg hperm]
            by_cases hdp : splitPath dp = []
            · simp only [if_pos hdp]; exact h
            · simp only [if_neg hdp]
              cases hdpar : resolveParent fs.root (splitPath dp) with
              | none => exact h
              | some destParent =>
                dsimp only
                by_cases hperm2 : checkPerm destParent u .w = false ∧ u ≠ destParent.owner
                · rw [if_pos hperm2]; exact h
                · rw [if_neg hperm2]
                  cases hdlk : destParent.entries.lookup (lastPart (splitPath dp)) with
                  | some _ => exact h
                  | none =>
                    dsimp only
                    have hwfsp : nodeWf srcParent = true :=
                      nodeWf_resolveParent fs.root (splitPath sp) srcParent h.2 hspar
                    have hwfsn : nodeWf srcNode = true :=
                      nodeWf_lookup srcParent _ srcNode hwfsp hslk
                    have hwfmv : nodeWf (srcNode.rename (lastPart (splitPath dp))) = true :=
                      nodeWf_rename srcNode _ hwfsn
                    have hroot1wf : nodeWf (updateAt
                        (fun nd => nd.withEntries (nd.entries.erase (lastPart (splitPath sp))))
                        fs.root (splitPath sp).dropLast) = true :=
                      nodeWf_updateAt _ (fun n hn => nodeWf_withEntries_erase n _ hn)
                        _ fs.root h.2
                    refine ⟨?_, ?_⟩
                    · show (updateAt _ (updateAt _ fs.root _) _).isDir = true
                      rw [isDir_updateAt _ (fun n => isDir_withEntries n _),
                        isDir_updateAt _ (fun n => isDir_withEntries n _)]
                      exact h.1
                    · exact nodeWf_updateAt _
                        (fun n hn => nodeWf_withEntries_set n _ _ hn hwfmv)
                        _ _ hroot1wf

/-! ## Atomicity of failures -/

theorem mkdir_err (fs : FileSystem) (p u : String) (m : Nat) (e : FsError)
    (h : (fs.mkdir p u m).1 = some e) : (fs.mkdir p u m).2 = fs := by
  unfold FileSystem.mkdir at h ⊢
  by_cases hu : u ∉ fs.users
  · rw [if_pos hu]
  · rw [if_neg hu] at h ⊢
    by_cases hp : p = "/" ∨ p = ""
    · rw [if_pos hp]
    · rw [if_neg hp] at h ⊢
      dsimp only at h ⊢
      rw [mkdirGo_err u m (splitPath p) fs.root e h]

theorem write_file_succeeds_or_unchanged (fs : FileSystem) (p u : String)
    (data : List Nat) (m : Nat) :
    (fs.write_file p u data m).1 = none ∨ (fs.write_file p u data m).2 = fs := by
  unfold FileSystem.write_file
  by_cases hu : u ∉ fs.users
  · rw [if_pos hu]; right; rfl
  · rw [if_neg hu]
    by_cases hp : splitPath p = []
    · simp only [if_pos hp]; right; trivial
    · simp only [if_neg hp]
      cases hpar : resolveParent fs.root (splitPath p) with
      | none => right; rfl
      | some parent =>
        dsimp only
        by_cases hperm : checkPerm parent u .w = false ∧ u ≠ parent.owner
        · rw [if_pos hperm]; right; rfl
        · rw [if_neg hperm]
          cases hlk : parent.entries.lookup (lastPart (splitPath p)) with
          | none => left; rfl
          | some exist =>
            cases exist with
            | dir _ _ _ _ => right; rfl
            | file fn fo fm fc =>
              dsimp only
              by_cases hperm2 : checkPerm (.file fn fo fm fc) u .w = false ∧ u ≠ fo
              · rw [if_pos hperm2]; right; rfl
              · rw [if_neg hperm2]; left; rfl

theorem write_file_err (fs : FileSystem) (p u : String) (data : List Nat)
    (m : Nat) (e : FsError) (h : (fs.write_file p u data m).1 = some e) :
    (fs.write_file p u data m).2 = fs := by
  rcases write_file_succeeds_or_unchanged fs p u data m with hn | he
  · rw [hn] at h; exact absurd h (by simp)
  · exact he

theorem move_succeeds_or_unchanged (fs : FileSystem) (sp dp u : String) :
    (fs.move sp dp u).1 = none ∨ (fs.move sp dp u).2 = fs := by
  unfold FileSystem.move
  by_cases hu : u ∉ fs.users
  · rw [if_pos hu]; right; rfl
  · rw [if_neg hu]
    by_cases hsp : splitPath sp = []
    · simp only [if_pos hsp]; right; trivial
    · simp only [if_neg hsp]
      cases hspar : resolveParent fs.root (splitPath sp) with
      | none => right; rfl
      | some srcParent =>
        dsimp only
        cases hslk : srcParent.entries.lookup (lastPart (splitPath sp)) with
        | none => right; rfl
        | some srcNode =>
          dsimp only
          by_cases hperm : checkPerm srcParent u .w = false ∧ u ≠ srcParent.owner
          · rw [if_pos hperm]; right; rfl
          · rw [if_neg hperm]
            by_cases hdp : splitPath dp = []
            · simp only [if_pos hdp]; right; trivial
            · simp only [if_neg hdp]
              cases hdpar : resolveParent fs.root (splitPath dp) with
              | none => right; rfl
              | some destParent =>
                dsimp only
                by_cases hperm2 : checkPerm destParent u .w = false ∧ u ≠ destParent.owner
                · rw [if_pos hperm2]; right; rfl
                · rw [if_neg hperm2]
                  cases hdlk : destParent.entries.lookup (lastPart (splitPath dp)) with
                  | some n => right; rfl
                  | none => left; rfl

theorem move_err (fs : FileSystem) (sp dp u : String) (e : FsError)
    (h : (fs.move sp dp u).1 = some e) : (fs.move sp dp u).2 = fs := by
  rcases move_succeeds_or_unchanged fs sp dp u with hn | he
  · rw [hn] at h; exact absurd h (by simp)
  · exact he

/-! ## Write/read round-trip -/

theorem lastPart_concat (q : List String) (b : String) :
    lastPart (q ++ [b]) = b := by
  induction q with
  | nil => rfl
  | cons x xs ih =>
    cases xs with
    | nil => rfl
    | cons y ys => exact ih

theorem dropLast_append_lastPart (l : List String) (h : l ≠ []) :
    l.dropLast ++ [lastPart l] = l := by
  rcases List.eq_nil_or_concat l with rfl | ⟨L, b, hLb⟩
  · exact absurd rfl h
  · rw [hLb, List.concat_eq_append, List.dropLast_concat, lastPart_concat]

theorem resolveParent_some (root : Node) (parts : List String) (n : Node)
    (hp : parts ≠ []) (h : resolveParent root parts = some n) :
    resolveNode root parts.dropLast = some n ∧ n.isDir = true := by
  unfold resolveParent at h
  rw [if_neg hp] at h
  cases hr : resolveNode root parts.dropLast with
  | none => rw [hr] at h; simp at h
  | some n0 =>
    rw [hr] at h
    dsimp only at h
    by_cases hd : n0.isDir = true
    · rw [if_pos hd] at h
      cases h
      exact ⟨rfl, hd⟩
    · rw [if_neg hd] at h
      simp at h

/-- Either `write_file` raises, or afterwards the written path resolves to
a file whose content is exactly the written data. -/
theorem write_file_resolve_cases (fs : FileSystem) (p u : String)
    (data : List Nat) (m : Nat) :
    (∃ e, (fs.write_file p u data m).1 = some e) ∨
      ∃ fn fo fm2, resolveNode (fs.write_file p u data m).2.root (splitPath p) =
        some (.file fn fo fm2 data) := by
  unfold FileSystem.write_file
  by_cases hu : u ∉ fs.users
  · rw [if_pos hu]; exact Or.inl ⟨_, rfl⟩
  · rw [if_neg hu]
    by_cases hp : splitPath p = []
    · simp only [if_pos hp]; exact Or.inl ⟨_, rfl⟩
    · simp only [if_neg hp]
      obtain ⟨q, b, hqb⟩ : ∃ q b, splitPath p = q ++ [b] := by
        rcases List.eq_nil_or_concat (splitPath p) with h0 | ⟨L, c, hLc⟩
        · exact absurd h0 hp
        · exact ⟨L, c, by rw [hLc, List.concat_eq_append]⟩
      rw [hqb, List.dropLast_concat, lastPart_concat]
      cases hpar : resolveParent fs.root (q ++ [b]) with
      | none => exact Or.inl ⟨_, rfl⟩
      | some parent =>
        dsimp only
        have hq : resolveNode fs.root q = some parent ∧ parent.isDir = true := by
          have h2 := resolveParent_some fs.root (q ++ [b]) parent (by simp) hpar
          rwa [List.dropLast_concat] at h2
        by_cases hperm : checkPerm parent u .w = false ∧ u ≠ parent.owner
        · rw [if_pos hperm]; exact Or.inl ⟨_, rfl⟩
        · rw [if_neg hperm]
          cases hlk : parent.entries.lookup b with
          | none =>
            right
            refine ⟨b, u, m, ?_⟩
            dsimp only
            rw [resolveNode_append]
            rw [resolveNode_updateAt _ q fs.root parent hq.1]
            cases parent with
            | file _ _ _ _ => simp [Node.isDir] at hq
            | dir pn po pm pes =>
              simp [Option.bind, Node.withEntries, Node.entries, resolveNode,
                Entries.lookup_set_self]
          | some exist =>
            cases exist with
            | dir _ _ _ _ => exact Or.inl ⟨_, rfl⟩
            | file fn fo fm2 fc =>
              dsimp only
              by_cases hperm2 : checkPerm (.file fn fo fm2 fc) u .w = false ∧ u ≠ fo
              · rw [if_pos hperm2]; exact Or.inl ⟨_, rfl⟩
              · rw [if_neg hperm2]
                right
                refine ⟨fn, fo, fm2, ?_⟩
                dsimp only
                rw [resolveNode_append]
                rw [resolveNode_updateAt _ q fs.root parent hq.1]
                cases parent with
                | file _ _ _ _ => simp [Node.isDir] at hq
                | dir pn po pm pes =>
                  simp [Option.bind, Node.withEntries, Node.entries, resolveNode,
                    Entries.lookup_set_self]

/-! ## Example states for witnesses (the demo scenario of `main.py`) -/

def exampleFs0 : FileSystem :=
  (FileSystem.init.create_user "alice").create_user "bob"

def exampleFs1 : FileSystem :=
  (exampleFs0.mkdir "/docs" "alice" 0o777).2

def exampleFs2 : FileSystem :=
  (exampleFs1.write_file "/docs/readme.txt" "alice" [72, 105] 0o644).2

/-- The `/docs` directory node of `exampleFs2`. -/
def exampleDocsDir : Node :=
  .dir "docs" "alice" 0o777
    (.cons "readme.txt" (.file "readme.txt" "alice" 0o644 [72, 105]) .nil)

/-- The root node of `exampleFs2`. -/
def exampleRoot : Node :=
  .dir "/" "root" 0o777 (.cons "docs" exampleDocsDir .nil)

/-- Files `b.txt` then `a.txt` created in that insertion order under
`/docs` of `exampleFs1`. -/
def exampleFsBA : FileSystem :=
  ((exampleFs1.write_file "/docs/b.txt" "alice" [2] 0o644).2.write_file
    "/docs/a.txt" "alice" [1] 0o644).2

/-- The deny-guard used at every permission call site of `main.py`
(`not _check_perm(...) and username != node.owner`) denies exactly when
neither the mode bit is set nor the requester owns the node. -/
theorem not_denied_iff (b : Bool) (P : Prop) [Decidable P] :
    ¬(b = false ∧ ¬P) ↔ (b = true ∨ P) := by
  cases b <;> by_cases hP : P <;> simp [hP]

theorem not_denied {b : Bool} {P : Prop} (h : b = true ∨ P) :
    ¬(b = false ∧ ¬P) := by
  rintro ⟨hf, hnp⟩
  rcases h with ht | hp
  · rw [ht] at hf; cases hf
  · exact hnp hp

/-! ## Claim theorems -/

/-- C1: every public operation, started in a state whose tree satisfies the
rooted/acyclic invariant (root is a directory; in this inductive-tree
embedding "every non-root node is reachable from root via exactly one
entries-chain" amounts to every directory having duplicate-free entry
keys, acyclicity being inherent to the tree value), leaves the invariant
intact.  `read_file` and `list_dir` are embedded as pure functions — they
mutate nothing in the source — so the invariant is trivially preserved by
them, and the three state-mutating operations are covered here. -/
theorem ops_preserve_rooted_tree (fs : FileSystem) (p sp dp u : String)
    (m m2 : Nat) (data : List Nat) (h : treeWf fs) :
    treeWf (fs.mkdir p u m).2 ∧ treeWf (fs.write_file p u data m2).2 ∧
      treeWf (fs.move sp dp u).2 :=
  ⟨treeWf_mkdir fs p u m h, treeWf_write_file fs p u data m2 h,
    treeWf_move fs sp dp u h⟩

theorem ops_preserve_rooted_tree_witness :
    treeWf ((exampleFs2.mkdir "/a/b" "alice" 0o755).2) ∧
      treeWf ((exampleFs2.write_file "/docs/todo.txt" "alice" [1] 0o644).2) ∧
      treeWf ((exampleFs2.move "/docs/readme.txt" "/moved.txt" "alice").2) :=
  ops_preserve_rooted_tree exampleFs2 "/a/b" "/docs/readme.txt" "/moved.txt"
    "alice" 0o755 0o644 [1] ⟨by decide, by decide⟩

/-- C2 counterexample: `list_dir` (like `read_file`) performs no
user-registration check in the source, so an operation by a username never
registered can succeed instead of failing with `UnknownUser`: on the fresh
filesystem, `list_dir("/", "ghost")` returns `[]`. -/
theorem list_dir_unregistered_user_succeeds :
    ("ghost" ∉ FileSystem.init.users) ∧
      FileSystem.init.list_dir "/" "ghost" = .ok [] :=
  ⟨by decide, rfl⟩

/-- C2 (amended): only the state-mutating operations `mkdir`, `write_file`
and `move` check user registration and fail with `UnknownUser` for a
username never registered; `read_file` and `list_dir` perform no
registration check and can succeed for an unregistered username. -/
theorem mutating_ops_reject_unknown_user (fs : FileSystem) (p sp dp u : String)
    (m m2 : Nat) (data : List Nat) (h : u ∉ fs.users) :
    (fs.mkdir p u m).1 = some .unknownUser ∧
      (fs.write_file p u data m2).1 = some .unknownUser ∧
      (fs.move sp dp u).1 = some .unknownUser := by
  unfold FileSystem.mkdir FileSystem.write_file FileSystem.move
  rw [if_pos h, if_pos h, if_pos h]
  exact ⟨rfl, rfl, rfl⟩

theorem mutating_ops_reject_unknown_user_witness :
    (exampleFs2.mkdir "/g" "ghost" 0o755).1 = some .unknownUser ∧
      (exampleFs2.write_file "/g" "ghost" [1] 0o644).1 = some .unknownUser ∧
      (exampleFs2.move "/docs/readme.txt" "/g" "ghost").1 = some .unknownUser :=
  mutating_ops_reject_unknown_user exampleFs2 "/g" "/docs/readme.txt" "/g"
    "ghost" 0o755 0o644 [1] (by decide)

/-- C4: whenever `mkdir`, `write_file` or `move` fails with any error kind,
no partial effects are committed: the state (user registry and entire
tree) is exactly the pre-call state.  `read_file` and `list_dir` mutate
nothing in the source and are embedded as pure functions, so they commit
no effects at all. -/
theorem failed_ops_leave_state_unchanged (fs : FileSystem) (p sp dp u : String)
    (m m2 : Nat) (data : List Nat) (e1 e2 e3 : FsError) :
    ((fs.mkdir p u m).1 = some e1 → (fs.mkdir p u m).2 = fs) ∧
      ((fs.write_file p u data m2).1 = some e2 → (fs.write_file p u data m2).2 = fs) ∧
      ((fs.move sp dp u).1 = some e3 → (fs.move sp dp u).2 = fs) :=
  ⟨mkdir_err fs p u m e1, write_file_err fs p u data m2 e2,
    move_err fs sp dp u e3⟩

theorem failed_ops_leave_state_unchanged_witness :
    (exampleFs2.mkdir "/docs/readme.txt/x" "alice" 0o755).2 = exampleFs2 ∧
      (exampleFs2.write_file "/" "alice" [1] 0o644).2 = exampleFs2 ∧
      (exampleFs2.move "/docs/readme.txt" "/docs" "alice").2 = exampleFs2 :=
  ⟨(failed_ops_leave_state_unchanged exampleFs2 "/docs/readme.txt/x" "/docs/readme.txt"
      "/docs" "alice" 0o755 0o644 [1] .notADirectory .invalidOperation .alreadyExists).1 rfl,
    (failed_ops_leave_state_unchanged exampleFs2 "/" "/docs/readme.txt"
      "/docs" "alice" 0o755 0o644 [1] .notADirectory .invalidOperation .alreadyExists).2.1 rfl,
    (failed_ops_leave_state_unchanged exampleFs2 "/docs/readme.txt/x" "/docs/readme.txt"
      "/docs" "alice" 0o755 0o644 [1] .notADirectory .invalidOperation .alreadyExists).2.2 rfl⟩

/-- C3: for a registered user `u` and a path `p` (not root, with existing
parent — both implied by the write succeeding), if `write_file(p, u, data)`
succeeds and the subsequent `read_file(p, u)` succeeds, the value read is
exactly `data`. -/
theorem write_then_read_roundtrip (fs : FileSystem) (p u : String)
    (data : List Nat) (m : Nat) (v : List Nat)
    (_hu : u ∈ fs.users)
    (hw : (fs.write_file p u data m).1 = none)
    (hr : (fs.write_file p u data m).2.read_file p u = .ok v) :
    v = data := by
  rcases write_file_resolve_cases fs p u data m with ⟨e, he⟩ | ⟨fn, fo, fm2, hres⟩
  · rw [he] at hw; exact absurd hw (by simp)
  · unfold FileSystem.read_file at hr
    rw [hres] at hr
    dsimp only at hr
    by_cases hperm : checkPerm (.file fn fo fm2 data) u .r = false ∧ u ≠ fo
    · rw [if_pos hperm] at hr
      exact absurd hr (by simp)
    · rw [if_neg hperm] at hr
      simp only [Except.ok.injEq] at hr
      exact hr.symm

theorem write_then_read_roundtrip_witness :
    (exampleFs1.write_file "/docs/a.txt" "alice" [1, 2] 0o644).2.read_file
        "/docs/a.txt" "alice" = .ok [1, 2] ∧ ([1, 2] : List Nat) = [1, 2] :=
  ⟨rfl, write_then_read_roundtrip exampleFs1 "/docs/a.txt" "alice" [1, 2]
    0o644 [1, 2] (by decide) rfl rfl⟩

/-- C5: if the source resolves (its parent exists and lists the source
name), both parent write-permission checks pass, the user is registered
(the check that precedes them), the destination parent resolves and the
destination's final name already exists there, then `move` fails with
`AlreadyExists` and the whole state is unchanged, so the source is still
listed in its original parent and resolvable at its original path. -/
theorem move_no_overwrite (fs : FileSystem) (sp dp u : String)
    (srcParent srcNode destParent destNode : Node)
    (hu : u ∈ fs.users)
    (hsp : splitPath sp ≠ [])
    (hspar : resolveParent fs.root (splitPath sp) = some srcParent)
    (hslk : srcParent.entries.lookup (lastPart (splitPath sp)) = some srcNode)
    (hperm1 : checkPerm srcParent u Perm.w = true ∨ u = srcParent.owner)
    (hdp : splitPath dp ≠ [])
    (hdpar : resolveParent fs.root (splitPath dp) = some destParent)
    (hperm2 : checkPerm destParent u Perm.w = true ∨ u = destParent.owner)
    (hdlk : destParent.entries.lookup (lastPart (splitPath dp)) = some destNode) :
    fs.move sp dp u = (some .alreadyExists, fs) ∧
      resolveParent (fs.move sp dp u).2.root (splitPath sp) = some srcParent ∧
      srcParent.entries.lookup (lastPart (splitPath sp)) = some srcNode := by
  have hmv : fs.move sp dp u = (some .alreadyExists, fs) := by
    unfold FileSystem.move
    rw [if_neg (not_not_intro hu), if_neg hsp, hspar]
    dsimp only
    rw [hslk]
    dsimp only
    rw [if_neg (not_denied hperm1), if_neg hdp, hdpar]
    dsimp only
    rw [if_neg (not_denied hperm2), hdlk]
  refine ⟨hmv, ?_, hslk⟩
  rw [hmv]
  exact hspar

theorem move_no_overwrite_witness :
    exampleFs2.move "/docs/readme.txt" "/docs" "alice" =
        (some .alreadyExists, exampleFs2) ∧
      resolveParent (exampleFs2.move "/docs/readme.txt" "/docs" "alice").2.root
          (splitPath "/docs/readme.txt") = some exampleDocsDir ∧
      exampleDocsDir.entries.lookup (lastPart (splitPath "/docs/readme.txt")) =
        some (.file "readme.txt" "alice" 0o644 [72, 105]) :=
  move_no_overwrite exampleFs2 "/docs/readme.txt" "/docs" "alice"
    exampleDocsDir (.file "readme.txt" "alice" 0o644 [72, 105])
    exampleRoot exampleDocsDir
    (by decide) (by decide) rfl rfl (Or.inr rfl) (by decide) rfl
    (Or.inl (by decide)) rfl

theorem checkPerm_eq_true_iff (node : Node) (u : String) (pm : Perm) :
    checkPerm node u pm = true ↔
      ((node.mode >>> (if u = node.owner then 6 else 0)) &&& permBit pm) ≠ 0 := by
  unfold checkPerm
  simp [bne_iff_ne]

/-- C6: at every permission call site the effective access decision is
`not (not _check_perm(node, u, perm) and u != node.owner)`; this grants
access iff the required bit (4/2/1) is set in the relevant triplet of the
mode (owner triplet at shift 6 when `u` is the owner, other triplet at
shift 0 otherwise) OR `u` owns the node; in particular an owner is never
denied, and concretely the owner of a resolved file/directory always
succeeds in `read_file`/`list_dir` regardless of mode bits. -/
theorem check_perm_owner_bypass (node : Node) (u : String) (pm : Perm)
    (fs : FileSystem) (p : String) :
    (¬(checkPerm node u pm = false ∧ u ≠ node.owner) ↔
      (((node.mode >>> (if u = node.owner then 6 else 0)) &&& permBit pm ≠ 0) ∨
        u = node.owner)) ∧
    (u = node.owner → ¬(checkPerm node u pm = false ∧ u ≠ node.owner)) ∧
    (∀ nm md c, resolveNode fs.root (splitPath p) = some (.file nm u md c) →
      fs.read_file p u = .ok c) ∧
    (∀ nm md es, resolveNode fs.root (splitPath p) = some (.dir nm u md es) →
      fs.list_dir p u = .ok (List.insertionSort (fun a b => strLe a b = true) es.keys)) := by
  refine ⟨?_, ?_, ?_, ?_⟩
  · rw [not_denied_iff, checkPerm_eq_true_iff]
  · intro ho
    rintro ⟨_, hne⟩
    exact hne ho
  · intro nm md c hres
    unfold FileSystem.read_file
    rw [hres]
    dsimp only
    rw [if_neg (fun hc => hc.2 rfl)]
  · intro nm md es hres
    unfold FileSystem.list_dir
    by_cases hroot : p = "" ∨ p = "/"
    · have hsplit : splitPath p = [] := by
        rcases hroot with rfl | rfl <;> rfl
      rw [hsplit] at hres
      simp only [resolveNode, Option.some.injEq] at hres
      rw [if_pos hroot, hres]
      dsimp only
      rw [if_neg (fun hc => hc.2 rfl)]
    · rw [if_neg hroot, hres]
      dsimp only
      rw [if_neg (fun hc => hc.2 rfl)]

theorem check_perm_owner_bypass_witness :
    (¬(checkPerm exampleDocsDir "bob" Perm.w = false ∧
        "bob" ≠ exampleDocsDir.owner) ↔
      (((exampleDocsDir.mode >>> (if "bob" = exampleDocsDir.owner then 6 else 0)) &&&
          permBit Perm.w ≠ 0) ∨ "bob" = exampleDocsDir.owner)) ∧
    (¬(checkPerm (Node.file "f" "alice" 0 []) "alice" Perm.w = false ∧
        "alice" ≠ (Node.file "f" "alice" 0 []).owner)) ∧
    exampleFs2.read_file "/docs/readme.txt" "alice" = .ok [72, 105] ∧
    exampleFs2.list_dir "/docs" "alice" = .ok ["readme.txt"] := by
  refine ⟨(check_perm_owner_bypass exampleDocsDir "bob" Perm.w exampleFs2 "/docs").1,
    (check_perm_owner_bypass (Node.file "f" "alice" 0 []) "alice" Perm.w
      exampleFs2 "/docs").2.1 rfl,
    (check_perm_owner_bypass (Node.file "f" "alice" 0 []) "alice" Perm.r
      exampleFs2 "/docs/readme.txt").2.2.1 "readme.txt" 0o644 [72, 105] rfl,
    ?_⟩
  exact (check_perm_owner_bypass (Node.file "f" "alice" 0 []) "alice" Perm.r
    exampleFs2 "/docs").2.2.2 "docs" 0o777
    (.cons "readme.txt" (.file "readme.txt" "alice" 0o644 [72, 105]) .nil) rfl

theorem charsLe_total : ∀ as bs : List Char,
    charsLe as bs = true ∨ charsLe bs as = true := by
  intro as
  induction as with
  | nil => intro bs; left; rfl
  | cons a as ih =>
    intro bs
    cases bs with
    | nil => right; rfl
    | cons b bs =>
      by_cases hab : a = b
      · subst hab
        simp only [charsLe, if_pos rfl]
        exact ih bs
      · have hba : b ≠ a := fun h => hab h.symm
        simp only [charsLe, if_neg hab, if_neg hba, decide_eq_true_eq]
        rcases lt_or_gt_of_ne hab with hlt | hgt
        · left; exact hlt
        · right; exact hgt

theorem charsLe_trans : ∀ as bs cs : List Char,
    charsLe as bs = true → charsLe bs cs = true → charsLe as cs = true := by
  intro as
  induction as with
  | nil => intro bs cs _ _; rfl
  | cons a as ih =>
    intro bs cs hab hbc
    cases bs with
    | nil => simp [charsLe] at hab
    | cons b bs =>
      cases cs with
      | nil => simp [charsLe] at hbc
      | cons c cs =>
        by_cases h1 : a = b
        · subst h1
          simp only [charsLe, if_pos rfl] at hab
          by_cases h2 : a = c
          · subst h2
            simp only [charsLe, if_pos rfl] at hbc ⊢
            exact ih bs cs hab hbc
          · simp only [charsLe, if_neg h2] at hbc ⊢
            exact hbc
        · simp only [charsLe, if_neg h1, decide_eq_true_eq] at hab
          by_cases h2 : b = c
          · subst h2
            simp only [charsLe, if_neg h1, decide_eq_true_eq]
            exact hab
          · simp only [charsLe, if_neg h2, decide_eq_true_eq] at hbc
            have hac : a < c := lt_trans hab hbc
            simp only [charsLe, if_neg (ne_of_lt hac), decide_eq_true_eq]
            exact hac

instance strLe_total_inst : IsTotal String (fun a b => strLe a b = true) :=
  ⟨fun a b => charsLe_total a.data b.data⟩

instance strLe_trans_inst : IsTrans String (fun a b => strLe a b = true) :=
  ⟨fun a b c => charsLe_trans a.data b.data c.data⟩

/-- C9: whenever `list_dir` succeeds it returns exactly the set of the
resolved directory's immediate child names (a permutation of the entry
keys), as a sequence sorted in lexicographic (String) order; being a pure
function of the state in this embedding — as in the source, which only
reads `entries.keys()` — it modifies no node, entry or content. -/
theorem list_dir_sorted_listing (fs : FileSystem) (p u : String)
    (l : List String) (h : fs.list_dir p u = .ok l) :
    ∃ nm o md es,
      (if p = "" ∨ p = "/" then some fs.root
        else resolveNode fs.root (splitPath p)) = some (.dir nm o md es) ∧
      l.Perm es.keys ∧ l.Sorted (fun a b => strLe a b = true) := by
  unfold FileSystem.list_dir at h
  by_cases hroot : p = "" ∨ p = "/"
  · rw [if_pos hroot] at h
    dsimp only at h
    cases hr : fs.root with
    | file nm o md c => rw [hr] at h; simp at h
    | dir nm o md es =>
      rw [hr] at h
      dsimp only at h
      by_cases hperm : checkPerm (.dir nm o md es) u .r = false ∧ u ≠ o
      · rw [if_pos hperm] at h; exact absurd h (by simp)
      · rw [if_neg hperm] at h
        simp only [Except.ok.injEq] at h
        refine ⟨nm, o, md, es, by rw [if_pos hroot], ?_, ?_⟩
        · rw [← h]; exact List.perm_insertionSort _ es.keys
        · rw [← h]; exact List.sorted_insertionSort _ es.keys
  · rw [if_neg hroot] at h
    cases hr : resolveNode fs.root (splitPath p) with
    | none => rw [hr] at h; simp at h
    | some nd =>
      rw [hr] at h
      dsimp only at h
      cases nd with
      | file nm o md c => exact absurd h (by simp)
      | dir nm o md es =>
        dsimp only at h
        by_cases hperm : checkPerm (.dir nm o md es) u .r = false ∧ u ≠ o
        · rw [if_pos hperm] at h; exact absurd h (by simp)
        · rw [if_neg hperm] at h
          simp only [Except.ok.injEq] at h
          refine ⟨nm, o, md, es, by rw [if_neg hroot], ?_, ?_⟩
          · rw [← h]; exact List.perm_insertionSort _ es.keys
          · rw [← h]; exact List.sorted_insertionSort _ es.keys

theorem list_dir_sorted_listing_witness :
    exampleFsBA.list_dir "/docs" "alice" = .ok ["a.txt", "b.txt"] ∧
      (["a.txt", "b.txt"] : List String).Sorted (fun a b => strLe a b = true) :=
  ⟨by decide, by
    obtain ⟨nm, o, md, es, hh, hperm, hsort⟩ :=
      list_dir_sorted_listing exampleFsBA "/docs" "alice" ["a.txt", "b.txt"] (by decide)
    exact hsort⟩

/-- Helper for C10: appending one real component and one `".."` to an
absolute path's component stream cancels, before any tree lookup. -/
theorem normParts_cancel (parts : List String) (x : String)
    (h1 : ¬(x = "" ∨ x = ".")) (h2 : x ≠ "..") :
    normParts true (parts ++ [x, ".."]) = normParts true parts := by
  unfold normParts
  rw [List.foldl_append]
  show normStep true (normStep true (List.foldl (normStep true) [] parts) x) ".." = _
  set acc := List.foldl (normStep true) [] parts with hacc
  have hx : normStep true acc x = acc ++ [x] := by
    unfold normStep
    rw [if_neg h1, if_neg h2]
  rw [hx]
  unfold normStep
  rw [if_neg (by simp), if_pos rfl]
  rw [if_pos ⟨by simp, by simp [List.getLast?_concat, h2]⟩]
  rw [List.dropLast_concat]

theorem normParts_no_dotdot :
    ∀ (l acc : List String), ".." ∉ acc →
      ".." ∉ List.foldl (normStep true) acc l := by
  intro l
  induction l with
  | nil => intro acc h; simpa using h
  | cons x xs ih =>
    intro acc h
    rw [List.foldl_cons]
    apply ih
    unfold normStep
    by_cases h1 : x = "" ∨ x = "."
    · rw [if_pos h1]; exact h
    · rw [if_neg h1]
      by_cases h2 : x = ".."
      · rw [if_pos h2]
        by_cases h3 : acc ≠ [] ∧ acc.getLast? ≠ some ".."
        · rw [if_pos h3]
          intro hmem
          exact h (List.dropLast_subset acc hmem)
        · rw [if_neg h3, if_pos rfl]
          exact h
      · rw [if_neg h2]
        intro hmem
        rcases List.mem_append.mp hmem with hm | hm
        · exact h hm
        · simp only [List.mem_singleton] at hm
          exact h2 hm.symm

/-- C10: `_split_path` resolves `".."` purely syntactically before any
tree lookup: `"/a/b/../c"` yields components `["a", "c"]` whether or not
`/a/b` exists; a real component followed by `".."` always cancels in an
absolute path; `".."` at the root of an absolute path is discarded
(`"/../a"` yields `["a"]`), and the components of an absolute path never
contain `".."`, so no absolute path addresses above root. -/
theorem split_path_dotdot_syntactic (parts : List String) (x s : String) :
    splitPath "/a/b/../c" = ["a", "c"] ∧
    splitPath "/../a" = ["a"] ∧
    (¬(x = "" ∨ x = ".") → x ≠ ".." →
      normParts true (parts ++ [x, ".."]) = normParts true parts) ∧
    (isAbs s = true → ".." ∉ splitPath s) := by
  refine ⟨by decide, by decide, normParts_cancel parts x, ?_⟩
  intro hs
  unfold splitPath
  rw [hs]
  exact normParts_no_dotdot (splitSep s.data) [] (by simp)

theorem split_path_dotdot_syntactic_witness :
    normParts true (["a"] ++ ["b", ".."]) = normParts true ["a"] ∧
      ".." ∉ splitPath "/x/../y" :=
  ⟨(split_path_dotdot_syntactic ["a"] "b" "/x/../y").2.2.1 (by decide) (by decide),
    (split_path_dotdot_syntactic ["a"] "b" "/x/../y").2.2.2 rfl⟩

theorem denied_of_not {b : Bool} {P : Prop} (h : ¬(b = true ∨ P)) :
    b = false ∧ ¬P := by
  constructor
  · cases hb : b
    · rfl
    · exact absurd (Or.inl hb) h
  · exact fun hp => h (Or.inr hp)

theorem write_file_eq_create (fs : FileSystem) (p u : String) (data : List Nat)
    (m : Nat) (q : List String) (b : String) (parent : Node)
    (hu : u ∈ fs.users) (hqb : splitPath p = q ++ [b])
    (hpar : resolveParent fs.root (splitPath p) = some parent)
    (hperm : ¬(checkPerm parent u Perm.w = false ∧ u ≠ parent.owner))
    (hlk : parent.entries.lookup b = none) :
    fs.write_file p u data m =
      (none, { fs with root := updateAt (fun nd => nd.withEntries (nd.entries.set b (.file b u m data))) fs.root q }) := by
  rw [hqb] at hpar
  unfold FileSystem.write_file
  rw [if_neg (not_not_intro hu), hqb,
    if_neg (by simp : ¬(q ++ [b] = [])), hpar]
  dsimp only
  rw [if_neg hperm, lastPart_concat, hlk, List.dropLast_concat]

theorem write_file_eq_overwrite (fs : FileSystem) (p u : String) (data : List Nat)
    (m : Nat) (q : List String) (b : String) (parent : Node)
    (fn fo : String) (fm2 : Nat) (fc : List Nat)
    (hu : u ∈ fs.users) (hqb : splitPath p = q ++ [b])
    (hpar : resolveParent fs.root (splitPath p) = some parent)
    (hperm : ¬(checkPerm parent u Perm.w = false ∧ u ≠ parent.owner))
    (hlk : parent.entries.lookup b = some (.file fn fo fm2 fc))
    (hperm2 : ¬(checkPerm (.file fn fo fm2 fc) u Perm.w = false ∧ u ≠ fo)) :
    fs.write_file p u data m =
      (none, { fs with root := updateAt (fun nd => nd.withEntries (nd.entries.set b (.file fn fo fm2 data))) fs.root q }) := by
  rw [hqb] at hpar
  unfold FileSystem.write_file
  rw [if_neg (not_not_intro hu), hqb,
    if_neg (by simp : ¬(q ++ [b] = [])), hpar]
  dsimp only
  rw [if_neg hperm, lastPart_concat, hlk]
  dsimp only
  rw [if_neg hperm2, List.dropLast_concat]

theorem write_file_eq_file_denied (fs : FileSystem) (p u : String) (data : List Nat)
    (m : Nat) (q : List String) (b : String) (parent : Node)
    (fn fo : String) (fm2 : Nat) (fc : List Nat)
    (hu : u ∈ fs.users) (hqb : splitPath p = q ++ [b])
    (hpar : resolveParent fs.root (splitPath p) = some parent)
    (hperm : ¬(checkPerm parent u Perm.w = false ∧ u ≠ parent.owner))
    (hlk : parent.entries.lookup b = some (.file fn fo fm2 fc))
    (hperm2 : checkPerm (.file fn fo fm2 fc) u Perm.w = false ∧ u ≠ fo) :
    fs.write_file p u data m = (some .permissionDenied, fs) := by
  rw [hqb] at hpar
  unfold FileSystem.write_file
  rw [if_neg (not_not_intro hu), hqb,
    if_neg (by simp : ¬(q ++ [b] = [])), hpar]
  dsimp only
  rw [if_neg hperm, lastPart_concat, hlk]
  dsimp only
  rw [if_pos hperm2]

theorem resolve_set_file (fs1root : Node) (q : List String) (b : String)
    (parent v : Node)
    (hq : resolveNode fs1root q = some parent) (hd : parent.isDir = true) :
    resolveNode (updateAt
      (fun nd => nd.withEntries (nd.entries.set b v)) fs1root q) (q ++ [b]) =
      some v := by
  rw [resolveNode_append,
    resolveNode_updateAt (fun nd => nd.withEntries (nd.entries.set b v)) q fs1root parent hq]
  cases parent with
  | file _ _ _ _ => simp [Node.isDir] at hd
  | dir pn po pm pes =>
    simp [Option.bind, Node.withEntries, Node.entries, resolveNode,
      Entries.lookup_set_self]

/-- C7: for `write_file` by a registered user on a path whose parent
resolves and passes the write check: if the final name is absent a new
`File` owned by the requester with the requested mode and content is
created, with no further permission check; if the final name is an
existing file, write permission on that file itself (or ownership) is
additionally required — on failure the call returns `PermissionDenied`
with the state unchanged, on success the file keeps its name, owner and
mode and its entire content is replaced. -/
theorem write_file_create_and_overwrite (fs : FileSystem) (p u : String)
    (data : List Nat) (m : Nat) (q : List String) (b : String) (parent : Node)
    (hu : u ∈ fs.users)
    (hqb : splitPath p = q ++ [b])
    (hpar : resolveParent fs.root (splitPath p) = some parent)
    (hperm : checkPerm parent u Perm.w = true ∨ u = parent.owner) :
    (parent.entries.lookup b = none →
      (fs.write_file p u data m).1 = none ∧
        resolveNode (fs.write_file p u data m).2.root (splitPath p) =
          some (.file b u m data)) ∧
    (∀ fn fo fm2 fc,
      parent.entries.lookup b = some (.file fn fo fm2 fc) →
      ((checkPerm (.file fn fo fm2 fc) u Perm.w = true ∨ u = fo) →
        (fs.write_file p u data m).1 = none ∧
          resolveNode (fs.write_file p u data m).2.root (splitPath p) =
            some (.file fn fo fm2 data)) ∧
      (¬(checkPerm (.file fn fo fm2 fc) u Perm.w = true ∨ u = fo) →
        fs.write_file p u data m = (some .permissionDenied, fs))) := by
  have hq : resolveNode fs.root q = some parent ∧ parent.isDir = true := by
    have h2 := resolveParent_some fs.root (splitPath p) parent
      (by rw [hqb]; simp) hpar
    rwa [hqb, List.dropLast_concat] at h2
  refine ⟨?_, ?_⟩
  · intro hlk
    rw [write_file_eq_create fs p u data m q b parent hu hqb hpar
      (not_denied hperm) hlk]
    exact ⟨rfl, by rw [hqb]; exact resolve_set_file fs.root q b parent _ hq.1 hq.2⟩
  · intro fn fo fm2 fc hlk
    refine ⟨?_, ?_⟩
    · intro hperm2
      rw [write_file_eq_overwrite fs p u data m q b parent fn fo fm2 fc hu hqb
        hpar (not_denied hperm) hlk (not_denied hperm2)]
      exact ⟨rfl, by rw [hqb]; exact resolve_set_file fs.root q b parent _ hq.1 hq.2⟩
    · intro hperm2
      exact write_file_eq_file_denied fs p u data m q b parent fn fo fm2 fc hu hqb
        hpar (not_denied hperm) hlk (denied_of_not hperm2)

theorem write_file_create_and_overwrite_witness :
    ((exampleFs1.write_file "/docs/new.txt" "alice" [9] 0o600).1 = none ∧
      resolveNode (exampleFs1.write_file "/docs/new.txt" "alice" [9] 0o600).2.root
          (splitPath "/docs/new.txt") = some (.file "new.txt" "alice" 0o600 [9])) ∧
    ((exampleFs2.write_file "/docs/readme.txt" "alice" [7] 0o644).1 = none ∧
      resolveNode (exampleFs2.write_file "/docs/readme.txt" "alice" [7] 0o644).2.root
          (splitPath "/docs/readme.txt") =
        some (.file "readme.txt" "alice" 0o644 [7])) ∧
    exampleFs2.write_file "/docs/readme.txt" "bob" [7] 0o644 =
      (some .permissionDenied, exampleFs2) := by
  refine ⟨?_, ?_, ?_⟩
  · exact (write_file_create_and_overwrite exampleFs1 "/docs/new.txt" "alice" [9]
      0o600 ["docs"] "new.txt" (.dir "docs" "alice" 0o777 .nil)
      (by decide) (by decide) rfl (Or.inr rfl)).1 rfl
  · exact ((write_file_create_and_overwrite exampleFs2 "/docs/readme.txt" "alice"
      [7] 0o644 ["docs"] "readme.txt" exampleDocsDir
      (by decide) (by decide) rfl (Or.inr rfl)).2 "readme.txt" "alice" 0o644
      [72, 105] rfl).1 (Or.inr rfl)
  · exact ((write_file_create_and_overwrite exampleFs2 "/docs/readme.txt" "bob"
      [7] 0o644 ["docs"] "readme.txt" exampleDocsDir
      (by decide) (by decide) rfl (Or.inl (by decide))).2 "readme.txt" "alice"
      0o644 [72, 105] rfl).2 (by decide)

theorem mkdirGo_prefix (u : String) (mo : Nat) :
    ∀ (parts : List String) (cur cur1 : Node),
      mkdirGo u mo cur parts = (none, cur1) →
      ∀ q r, parts = q ++ r →
        (∀ n0, resolveNode cur q = some n0 →
          ∃ n1, resolveNode cur1 q = some n1 ∧ n1.name = n0.name ∧
            n1.owner = n0.owner ∧ n1.mode = n0.mode ∧ n1.isDir = n0.isDir) ∧
        (resolveNode cur q = none →
          ∃ n1, resolveNode cur1 q = some n1 ∧ n1.owner = u ∧ n1.mode = mo ∧
            n1.isDir = true) := by
  intro parts
  induction parts with
  | nil =>
    intro cur cur1 hmk q r hqr
    have hq : q = [] := by
      cases q with
      | nil => rfl
      | cons a as => simp at hqr
    subst hq
    simp only [mkdirGo, Prod.mk.injEq] at hmk
    obtain ⟨-, rfl⟩ := hmk
    constructor
    · intro n0 h0
      exact ⟨n0, h0, rfl, rfl, rfl, rfl⟩
    · intro h0
      simp [resolveNode] at h0
  | cons part rest ih =>
    intro cur cur1 hmk q r hqr
    cases cur with
    | file n o m c => simp [mkdirGo] at hmk
    | dir n o m es =>
      cases q with
      | nil =>
        have hshape : ∃ es1, cur1 = .dir n o m es1 := by
          cases hl : es.lookup part with
          | none =>
            by_cases hc : checkPerm (.dir n o m es) u .w = false ∧ u ≠ o
            · simp [mkdirGo, hl, if_pos hc] at hmk
            · simp only [mkdirGo, hl, if_neg hc, Prod.mk.injEq] at hmk
              exact ⟨_, hmk.2.symm⟩
          | some child =>
            cases child with
            | dir cn co cm ces =>
              simp only [mkdirGo, hl, Prod.mk.injEq] at hmk
              exact ⟨_, hmk.2.symm⟩
            | file fn fo fm fc => simp [mkdirGo, hl] at hmk
        obtain ⟨es1, rfl⟩ := hshape
        constructor
        · intro n0 h0
          simp only [resolveNode, Option.some.injEq] at h0
          subst h0
          exact ⟨.dir n o m es1, rfl, rfl, rfl, rfl, rfl⟩
        · intro h0
          simp [resolveNode] at h0
      | cons p0 q' =>
        obtain ⟨rfl, hrest⟩ : p0 = part ∧ rest = q' ++ r := by
          rw [List.cons_append] at hqr
          simp only [List.cons.injEq] at hqr
          exact ⟨hqr.1.symm, hqr.2⟩
        cases hl : es.lookup p0 with
        | none =>
          by_cases hc : checkPerm (.dir n o m es) u .w = false ∧ u ≠ o
          · simp [mkdirGo, hl, if_pos hc] at hmk
          · simp only [mkdirGo, hl, if_neg hc, Prod.mk.injEq] at hmk
            have hsub : mkdirGo u mo (.dir p0 u mo .nil) rest =
                (none, (mkdirGo u mo (.dir p0 u mo .nil) rest).2) := by
              rw [← hmk.1]
            have hih := ih (.dir p0 u mo .nil)
              (mkdirGo u mo (.dir p0 u mo .nil) rest).2 hsub q' r hrest
            constructor
            · intro n0 h0
              simp [resolveNode, hl] at h0
            · intro h0
              rw [← hmk.2]
              simp only [resolveNode, Entries.lookup_set_self]
              cases q' with
              | nil =>
                obtain ⟨n1, hn1, hname, howner, hmode, hdir⟩ :=
                  hih.1 (.dir p0 u mo .nil) rfl
                exact ⟨n1, hn1, howner, hmode, hdir⟩
              | cons y ys =>
                obtain ⟨n1, hn1, howner, hmode, hdir⟩ :=
                  hih.2 (by simp [resolveNode, Entries.lookup])
                exact ⟨n1, hn1, howner, hmode, hdir⟩
        | some child =>
          cases child with
          | file fn fo fm fc => simp [mkdirGo, hl] at hmk
          | dir cn co cm ces =>
            simp only [mkdirGo, hl, Prod.mk.injEq] at hmk
            have hsub : mkdirGo u mo (.dir cn co cm ces) rest =
                (none, (mkdirGo u mo (.dir cn co cm ces) rest).2) := by
              rw [← hmk.1]
            have hih := ih (.dir cn co cm ces)
              (mkdirGo u mo (.dir cn co cm ces) rest).2 hsub q' r hrest
            constructor
            · intro n0 h0
              simp only [resolveNode, hl] at h0
              obtain ⟨n1, hn1, hprops⟩ := hih.1 n0 h0
              refine ⟨n1, ?_, hprops⟩
              rw [← hmk.2]
              simp only [resolveNode, Entries.lookup_set_self]
              exact hn1
            · intro h0
              simp only [resolveNode, hl] at h0
              obtain ⟨n1, hn1, hprops⟩ := hih.2 h0
              refine ⟨n1, ?_, hprops⟩
              rw [← hmk.2]
              simp only [resolveNode, Entries.lookup_set_self]
              exact hn1

/-- C8: `mkdir` walks the path component by component.  If the whole path
already exists as directories, it succeeds as a strict no-op (it does not
raise and changes nothing, in particular no owner or mode).  If it
succeeds in general, then along every prefix of the path: a component
that already existed keeps its name, owner, mode and kind, and a
component that was missing now resolves to a directory owned by the
requesting user with exactly the requested mode argument (the same mode
for intermediate components as for the leaf). -/
theorem mkdir_component_semantics (fs : FileSystem) (p u : String) (m : Nat)
    (hu : u ∈ fs.users) :
    ((∃ d, resolveNode fs.root (splitPath p) = some d ∧ d.isDir = true) →
      fs.mkdir p u m = (none, fs)) ∧
    (∀ fs1, fs.mkdir p u m = (none, fs1) →
      ∀ q r, splitPath p = q ++ r →
        (∀ n0, resolveNode fs.root q = some n0 →
          ∃ n1, resolveNode fs1.root q = some n1 ∧ n1.name = n0.name ∧
            n1.owner = n0.owner ∧ n1.mode = n0.mode ∧ n1.isDir = n0.isDir) ∧
        (resolveNode fs.root q = none →
          ∃ n1, resolveNode fs1.root q = some n1 ∧ n1.owner = u ∧
            n1.mode = m ∧ n1.isDir = true)) := by
  constructor
  · rintro ⟨d, hres, hdir⟩
    unfold FileSystem.mkdir
    rw [if_neg (not_not_intro hu)]
    by_cases hp : p = "/" ∨ p = ""
    · rw [if_pos hp]
    · rw [if_neg hp]
      dsimp only
      rw [mkdirGo_noop u m (splitPath p) fs.root d hres hdir]
  · intro fs1 hmk q r hqr
    unfold FileSystem.mkdir at hmk
    rw [if_neg (not_not_intro hu)] at hmk
    by_cases hp : p = "/" ∨ p = ""
    · rw [if_pos hp] at hmk
      have hsplit : splitPath p = [] := by
        rcases hp with rfl | rfl <;> rfl
      rw [hsplit] at hqr
      have hq : q = [] := (List.append_eq_nil.mp hqr.symm).1
      subst hq
      simp only [Prod.mk.injEq] at hmk
      obtain ⟨-, rfl⟩ := hmk
      constructor
      · intro n0 h0
        simp only [resolveNode, Option.some.injEq] at h0
        subst h0
        exact ⟨fs.root, rfl, rfl, rfl, rfl, rfl⟩
      · intro h0
        simp [resolveNode] at h0
    · rw [if_neg hp] at hmk
      dsimp only at hmk
      simp only [Prod.mk.injEq] at hmk
      have hgo : mkdirGo u m fs.root (splitPath p) =
          (none, (mkdirGo u m fs.root (splitPath p)).2) := by
        rw [← hmk.1]
      have hpre := mkdirGo_prefix u m (splitPath p) fs.root
        (mkdirGo u m fs.root (splitPath p)).2 hgo q r hqr
      have hroot : fs1.root = (mkdirGo u m fs.root (splitPath p)).2 := by
        rw [← hmk.2]
      rw [hroot]
      exact hpre

theorem mkdir_component_semantics_witness :
    exampleFs1.mkdir "/docs" "alice" 0o755 = (none, exampleFs1) ∧
      (∃ n1, resolveNode (exampleFs0.mkdir "/a/b" "alice" 0o700).2.root ["a"] =
          some n1 ∧ n1.owner = "alice" ∧ n1.mode = 0o700 ∧ n1.isDir = true) := by
  constructor
  · exact (mkdir_component_semantics exampleFs1 "/docs" "alice" 0o755
      (by decide)).1 ⟨.dir "docs" "alice" 0o777 .nil, rfl, rfl⟩
  · exact ((mkdir_component_semantics exampleFs0 "/a/b" "alice" 0o700
      (by decide)).2 (exampleFs0.mkdir "/a/b" "alice" 0o700).2 rfl
      ["a"] ["b"] (by decide)).2 rfl

end FsModel
